import Mathlib

/-!
Verification development for the songplayer repository.

The two source files embedded here are
  scripts/adjust_song.py          (the timeline editor), and
  scripts/process_sheet_music.py  (the score importer and quantizer/formatter).

Python floats are modelled as rationals (ℚ), Python ints as ℤ, JSON dicts as
structures whose optional keys are `Option` fields, and exceptions as `Except`
values or explicit success flags.  Every definition is translated from the
source code; line numbers in comments refer to the source files.
-/

/-! ### Timeline editor: scripts/adjust_song.py -/

/-- One element of the `"notes"` array of a song JSON file, as manipulated by
`adjust_song.py`.  The `note` key is optional (absent for rests); the `rest`
field models the presence of the `"rest": true` key.  All editor operations
require `time` and `measure` to be present, so they are plain fields. -/
structure SNote where
  note : Option String
  rest : Bool
  time : ℚ
  duration : ℚ
  measure : ℤ
deriving DecidableEq, Repr

/-- A song JSON document as loaded by `load_song` (adjust_song.py lines 33-36). -/
structure Song where
  title : String
  artist : String
  bpm : ℚ
  timeSignature : ℚ × ℚ
  tuning : List String
  notes : List SNote
deriving DecidableEq, Repr

/-- adjust_song.py lines 68-70: `song["timeSignature"][0]`. -/
def get_beats_per_measure (s : Song) : ℚ := s.timeSignature.1

/-- Floor of a rational, written so that it evaluates by kernel reduction:
`num / den` with integer (Euclidean) division.  Equal to `⌊q⌋`. -/
def ratFloor (q : ℚ) : ℤ := q.num / (q.den : ℤ)

theorem ratFloor_eq (q : ℚ) : ratFloor q = ⌊q⌋ := by
  rw [Rat.floor_def]
  rfl

/-- Ceiling of a rational, evaluating by kernel reduction; equal to `⌈q⌉`. -/
def ratCeil (q : ℚ) : ℤ := -ratFloor (-q)

theorem ratCeil_eq (q : ℚ) : ratCeil q = ⌈q⌉ := by
  rw [ratCeil, ratFloor_eq, Int.floor_neg, neg_neg]

/-- Python `int()` applied to a rational: truncation toward zero
(`int(-0.5) == 0`, unlike `floor(-0.5) == -1`). -/
def pyInt (q : ℚ) : ℤ := if 0 ≤ q then ratFloor q else ratCeil q

theorem pyInt_eq (q : ℚ) : pyInt q = if 0 ≤ q then ⌊q⌋ else ⌈q⌉ := by
  rw [pyInt]
  by_cases h : 0 ≤ q
  · rw [if_pos h, if_pos h, ratFloor_eq]
  · rw [if_neg h, if_neg h, ratCeil_eq]

theorem pyInt_eq_floor_of_nonneg (q : ℚ) (h : 0 ≤ q) : pyInt q = ⌊q⌋ := by
  rw [pyInt, if_pos h, ratFloor_eq]

/-- adjust_song.py lines 72-101.  Every note whose `measure` is
`≥ measure_index + 1` gets `time += beats_per_measure` and `measure += 1`;
earlier notes are appended unchanged. -/
def shift_measures (song : Song) (mi : ℤ) : Song :=
  let b := get_beats_per_measure song
  { song with notes := song.notes.map fun n =>
      if n.measure < mi + 1 then n
      else { n with time := n.time + b, measure := n.measure + 1 } }

/-- adjust_song.py lines 103-133.  Shifts first, then sets the new note's
`time` and `measure` and inserts it.  The Python insertion loop yields the
index of the first note with `measure > measure_index + 1` and the list length
when no such note exists (for an empty list the loop body never runs and the
index stays 0, which inserts into the empty list exactly like appending), so it
coincides with `findIdx` (which returns the length on failure) followed by
`insertIdx`.  No validation of `new` is performed anywhere in the function. -/
def add_measure_with_note (song : Song) (mi : ℤ) (new : SNote) : Song :=
  let s := shift_measures song mi
  let b := get_beats_per_measure s
  let n' := { new with time := (mi : ℚ) * b, measure := mi + 1 }
  let idx := s.notes.findIdx fun n => decide (mi + 1 < n.measure)
  { s with notes := s.notes.insertIdx idx n' }

/-- adjust_song.py lines 135-164.  Notes with `measure < measure_index + 1`
are kept, notes with `measure > measure_index + 1` are moved back one measure,
and notes with `measure == measure_index + 1` are dropped. -/
def remove_measure (song : Song) (mi : ℤ) : Song :=
  let b := get_beats_per_measure song
  { song with notes := song.notes.filterMap fun n =>
      if n.measure < mi + 1 then some n
      else if mi + 1 < n.measure then some { n with time := n.time - b, measure := n.measure - 1 } else none }

/-- adjust_song.py lines 166-201.  Notes with `time >= start_time` get
`time += time_offset` and `measure = int(time / beats_per_measure) + 1`
(Python `int()`, i.e. truncation toward zero); earlier notes are untouched. -/
def shift_by_time (song : Song) (startTime off : ℚ) : Song :=
  let b := get_beats_per_measure song
  { song with notes := song.notes.map fun n =>
      if startTime ≤ n.time then
        { n with time := n.time + off, measure := pyInt ((n.time + off) / b) + 1 }
      else n }

/-- The data-model invariant of the spec: every note's 1-based measure number
is derivable from its onset time, `measure == floor(time / beatsPerMeasure) + 1`. -/
def MeasureInv (s : Song) : Prop :=
  ∀ n ∈ s.notes, n.measure = ⌊n.time / get_beats_per_measure s⌋ + 1

instance (s : Song) : Decidable (MeasureInv s) := by
  unfold MeasureInv; infer_instance

/-! #### Helper lemmas about the editor operations -/

theorem shift_measures_timeSig (s : Song) (mi : ℤ) :
    get_beats_per_measure (shift_measures s mi) = get_beats_per_measure s := rfl

theorem shift_measures_notes (s : Song) (mi : ℤ) :
    (shift_measures s mi).notes = s.notes.map (fun n =>
      if n.measure < mi + 1 then n
      else { n with time := n.time + get_beats_per_measure s, measure := n.measure + 1 }) := rfl

theorem remove_measure_notes (s : Song) (mi : ℤ) :
    (remove_measure s mi).notes = s.notes.filterMap (fun n =>
      if n.measure < mi + 1 then some n
      else if mi + 1 < n.measure then some { n with time := n.time - get_beats_per_measure s, measure := n.measure - 1 } else none) := rfl

theorem add_measure_with_note_notes (s : Song) (mi : ℤ) (e : SNote) :
    (add_measure_with_note s mi e).notes =
      (shift_measures s mi).notes.insertIdx
        ((shift_measures s mi).notes.findIdx fun n => decide (mi + 1 < n.measure))
        { e with time := (mi : ℚ) * get_beats_per_measure s, measure := mi + 1 } := rfl

theorem shift_measures_inv (s : Song) (mi : ℤ)
    (hb : get_beats_per_measure s ≠ 0) (hinv : MeasureInv s) :
    MeasureInv (shift_measures s mi) := by
  intro n hn
  rw [shift_measures_timeSig]
  rw [shift_measures_notes, List.mem_map] at hn
  obtain ⟨n0, hn0, rfl⟩ := hn
  by_cases hc : n0.measure < mi + 1
  · simpa [hc] using hinv n0 hn0
  · simp only [hc, if_false]
    have h0 := hinv n0 hn0
    have : (n0.time + get_beats_per_measure s) / get_beats_per_measure s
        = n0.time / get_beats_per_measure s + 1 := by
      field_simp
    rw [this, Int.floor_add_one]
    omega

theorem remove_measure_inv (s : Song) (mi : ℤ)
    (hb : get_beats_per_measure s ≠ 0) (hinv : MeasureInv s) :
    MeasureInv (remove_measure s mi) := by
  intro n hn
  rw [remove_measure_notes, List.mem_filterMap] at hn
  obtain ⟨n0, hn0, hf⟩ := hn
  by_cases hc : n0.measure < mi + 1
  · rw [if_pos hc, Option.some_inj] at hf
    subst hf
    exact hinv n0 hn0
  · rw [if_neg hc] at hf
    by_cases hc2 : mi + 1 < n0.measure
    · rw [if_pos hc2, Option.some_inj] at hf
      subst hf
      show n0.measure - 1 = ⌊(n0.time - get_beats_per_measure s) / get_beats_per_measure s⌋ + 1
      have h0 := hinv n0 hn0
      have : (n0.time - get_beats_per_measure s) / get_beats_per_measure s
          = n0.time / get_beats_per_measure s - 1 := by
        field_simp
      rw [this, Int.floor_sub_one]
      omega
    · rw [if_neg hc2] at hf
      exact absurd hf (by simp)

/-- Claim C2: the three measure-based edits preserve the data-model invariant
`measure == floor(time / beatsPerMeasure) + 1` for every timeline whose events
all satisfy it, for any measure index `mi ≥ 0`. -/
theorem c2_measure_invariant_preserved (s : Song) (mi : ℤ) (e : SNote)
    (hb : 0 < get_beats_per_measure s) (hm : 0 ≤ mi) (hinv : MeasureInv s) :
    MeasureInv (shift_measures s mi)
      ∧ MeasureInv (add_measure_with_note s mi e)
      ∧ MeasureInv (remove_measure s mi) := by
  refine ⟨shift_measures_inv s mi hb.ne' hinv, ?_, remove_measure_inv s mi hb.ne' hinv⟩
  intro n hn
  rw [add_measure_with_note_notes,
    List.mem_insertIdx (List.findIdx_le_length _)] at hn
  rcases hn with rfl | hn
  · show mi + 1 = ⌊(mi : ℚ) * get_beats_per_measure s / get_beats_per_measure s⌋ + 1
    rw [mul_div_cancel_right₀ _ hb.ne', Int.floor_intCast]
  · exact shift_measures_inv s mi hb.ne' hinv n hn

/-- Concrete witness for C2: a two-measure 4/4 song with the invariant intact. -/
def songA : Song :=
  { title := "t", artist := "a", bpm := 90, timeSignature := (4, 4), tuning := []
    notes := [⟨some "C4", false, 0, 1, 1⟩, ⟨some "D4", false, 4, 1, 2⟩] }

def noteG4 : SNote := ⟨some "G4", false, 0, 1, 1⟩

theorem c2_witness :
    MeasureInv (shift_measures songA 1)
      ∧ MeasureInv (add_measure_with_note songA 1 noteG4)
      ∧ MeasureInv (remove_measure songA 1) :=
  c2_measure_invariant_preserved songA 1 noteG4 (by norm_num [get_beats_per_measure, songA])
    (by norm_num)
    (by intro n hn; fin_cases hn <;> norm_num [get_beats_per_measure, songA])

/-- Claim C3: shifting measures forward at index `mi` and then removing
measure `mi` restores the original events, when no event occupied measure
`mi + 1` beforehand.  (The proof does not even need the two hypotheses: after
the shift, measure `mi + 1` is always empty, so the removal drops nothing and
exactly undoes the shift.  The claim as stated is the weaker statement.) -/
theorem c3_shift_remove_roundtrip (s : Song) (mi : ℤ) (hm : 0 ≤ mi)
    (hno : ∀ n ∈ s.notes, n.measure ≠ mi + 1) :
    (remove_measure (shift_measures s mi) mi).notes = s.notes := by
  rw [remove_measure_notes, shift_measures_timeSig, shift_measures_notes,
    List.filterMap_map]
  have filterMap_id : ∀ (h : SNote → Option SNote), (∀ x, h x = some x) →
      ∀ l : List SNote, l.filterMap h = l := by
    intro h hh l
    induction l with
    | nil => rfl
    | cons x xs ih => rw [List.filterMap_cons_some (hh x), ih]
  apply filterMap_id
  intro x
  simp only [Function.comp_apply]
  by_cases hc : x.measure < mi + 1
  · rw [if_pos hc, if_pos hc]
  · rw [if_neg hc]
    have e1 : ¬(({ x with time := x.time + get_beats_per_measure s, measure := x.measure + 1 } : SNote).measure < mi + 1) := by
      show ¬(x.measure + 1 < mi + 1)
      omega
    have e2 : mi + 1 < ({ x with time := x.time + get_beats_per_measure s, measure := x.measure + 1 } : SNote).measure := by
      show mi + 1 < x.measure + 1
      omega
    rw [if_neg e1, if_pos e2]
    rcases x with ⟨xn, xr, xt, xd, xm⟩
    show some (⟨xn, xr, xt + get_beats_per_measure s - get_beats_per_measure s, xd, xm + 1 - 1⟩ : SNote) = some ⟨xn, xr, xt, xd, xm⟩
    rw [add_sub_cancel_right, add_sub_cancel_right]

theorem c3_witness : (remove_measure (shift_measures songA 2) 2).notes = songA.notes :=
  c3_shift_remove_roundtrip songA 2 (by norm_num) (by decide)

theorem shift_by_time_notes (s : Song) (startTime off : ℚ) :
    (shift_by_time s startTime off).notes = s.notes.map (fun n =>
      if startTime ≤ n.time then
        { n with time := n.time + off,
                 measure := pyInt ((n.time + off) / get_beats_per_measure s) + 1 }
      else n) := rfl

/-- Claim C4 counterexample: in `songA` (4/4), shifting from time 0 by
offset -2 moves the event at time 0 to time -2; the code stores measure
`int(-2/4) + 1 = 1` (truncation toward zero) whereas the claim's formula
`floor(-2/4) + 1` gives 0. -/
theorem c4_counterexample :
    ((shift_by_time songA 0 (-2)).notes.map (fun n => n.measure)).head? = some 1
    ∧ ⌊((0 : ℚ) + -2) / get_beats_per_measure songA⌋ + 1 = 0
    ∧ (1 : ℤ) ≠ 0 := by
  refine ⟨?_, ?_, by norm_num⟩
  · rw [shift_by_time_notes]
    norm_num [songA, get_beats_per_measure, pyInt_eq]
  · norm_num [songA, get_beats_per_measure]

/-- Claim C4 (amended): `shiftByTime` leaves every event with
`time < startTime` unchanged; every event with `time ≥ startTime` gets exactly
`time + offset` as its new time and its measure recomputed as
`trunc(newTime / beatsPerMeasure) + 1` (Python `int()`, truncation toward
zero), which agrees with the claimed `floor(newTime / beatsPerMeasure) + 1`
whenever the new time is non-negative. -/
theorem c4_shift_by_time_trunc (s : Song) (startTime off : ℚ)
    (hb : 0 < get_beats_per_measure s) (i : ℕ) (hi : i < s.notes.length) :
    (shift_by_time s startTime off).notes.length = s.notes.length
    ∧ ∀ n, s.notes.get ⟨i, hi⟩ = n →
      (n.time < startTime → (shift_by_time s startTime off).notes[i]? = some n)
      ∧ (startTime ≤ n.time →
          (shift_by_time s startTime off).notes[i]? =
            some { n with time := n.time + off,
                          measure := pyInt ((n.time + off) / get_beats_per_measure s) + 1 }
          ∧ (0 ≤ n.time + off →
              pyInt ((n.time + off) / get_beats_per_measure s) =
                ⌊(n.time + off) / get_beats_per_measure s⌋)) := by
  constructor
  · rw [shift_by_time_notes, List.length_map]
  · intro n hn
    have hget : s.notes[i]? = some n := by
      rw [List.getElem?_eq_getElem hi]
      simpa [List.get_eq_getElem] using hn
    have hmap : (shift_by_time s startTime off).notes[i]? =
        some (if startTime ≤ n.time then
          { n with time := n.time + off,
                   measure := pyInt ((n.time + off) / get_beats_per_measure s) + 1 }
        else n) := by
      rw [shift_by_time_notes, List.getElem?_map, hget]
      rfl
    constructor
    · intro hlt
      rw [hmap, if_neg (not_le.mpr hlt)]
    · intro hge
      refine ⟨by rw [hmap, if_pos hge], ?_⟩
      intro hpos
      exact pyInt_eq_floor_of_nonneg _ (div_nonneg hpos hb.le)

theorem c4_witness :
    (shift_by_time songA 0 (-2)).notes.length = songA.notes.length ∧
    ∀ n, songA.notes.get ⟨0, by norm_num [songA]⟩ = n →
      (n.time < 0 → (shift_by_time songA 0 (-2)).notes[0]? = some n)
      ∧ ((0 : ℚ) ≤ n.time →
          (shift_by_time songA 0 (-2)).notes[0]? =
            some { n with time := n.time + -2,
                          measure := pyInt ((n.time + -2) / get_beats_per_measure songA) + 1 }
          ∧ (0 ≤ n.time + -2 →
              pyInt ((n.time + -2) / get_beats_per_measure songA) =
                ⌊(n.time + -2) / get_beats_per_measure songA⌋)) :=
  c4_shift_by_time_trunc songA 0 (-2) (by norm_num [get_beats_per_measure, songA]) 0
    (by norm_num [songA])

/-- An event that lacks both a pitch and a rest flag and has a non-positive
duration. -/
def badE : SNote := ⟨none, false, 0, -1, 0⟩

/-- Claim C5 counterexample: `add_measure_with_note` performs no validation.
Passing an event with no pitch, no rest flag, and duration -1 does not fail:
the timeline's notes are mutated (the malformed event is inserted). -/
theorem c5_counterexample :
    (badE.note = none ∧ badE.rest = false ∧ badE.duration ≤ 0)
    ∧ (add_measure_with_note songA 0 badE).notes ≠ songA.notes := by
  have hlen : (add_measure_with_note songA 0 badE).notes.length = songA.notes.length + 1 := by
    rw [add_measure_with_note_notes, List.length_insertIdx _ _ (List.findIdx_le_length _),
      shift_measures_notes, List.length_map]
  refine ⟨⟨rfl, rfl, by norm_num [badE]⟩, fun heq => ?_⟩
  rw [heq] at hlen
  omega

/-- Claim C5 (amended): `add_measure_with_note` itself performs no validation
at all.  For every song, index and event — including events lacking both pitch
and rest flag, or with non-positive duration — it inserts the event (with
`time = mi * beatsPerMeasure`, `measure = mi + 1`) into the shifted song and
always grows the note list by one; no validation error path exists.  (The CLI
wrapper `main` rejects a missing `--note`/`--duration` and a zero duration via
`argparse`, but accepts negative durations.) -/
theorem c5_add_never_validates (s : Song) (mi : ℤ) (e : SNote) :
    ({ e with time := (mi : ℚ) * get_beats_per_measure s, measure := mi + 1 } : SNote)
        ∈ (add_measure_with_note s mi e).notes
    ∧ (add_measure_with_note s mi e).notes.length = s.notes.length + 1 := by
  constructor
  · rw [add_measure_with_note_notes, List.mem_insertIdx (List.findIdx_le_length _)]
    exact Or.inl rfl
  · rw [add_measure_with_note_notes, List.length_insertIdx _ _ (List.findIdx_le_length _),
      shift_measures_notes, List.length_map]

/-! ### Score importer: scripts/process_sheet_music.py -/

/-- The `pitch` child element of a MusicXML `note` element, as accessed by
`get_note_info` (lines 37-47).  `step` and `octave` model the respective child
elements (`none` = child missing, in which case accessing `.text` on the
`find` result raises `AttributeError`).  `alter` models the optional `alter`
child: `none` = absent, `some none` = present but its text is not an integer
(so `int(text)` raises `ValueError`), `some (some z)` = integer `z`.  The
`step` text is a single letter A-G and the `octave` text a single digit 0-9 in
MusicXML; they are modelled as a `Char` and an integer. -/
structure PitchElem where
  step : Option Char
  octave : Option ℤ
  alter : Option (Option ℤ)
deriving DecidableEq, Repr

/-- A MusicXML `note` element as read by `get_note_info` (lines 19-65):
presence of a `rest` child, the optional `duration` child (its numeric text,
already parsed), and the optional `pitch` child. -/
structure NoteElem where
  rest : Bool
  duration : Option ℚ
  pitch : Option PitchElem
deriving DecidableEq, Repr

/-- The pitch token built at line 60: `f"{step}{accidental}{octave}"`.
The quantizer later re-reads `note[0]` (the letter) and `int(note[-1])` (the
octave digit) from this string, which for single-letter steps and one-digit
octaves is exactly the `letter` and `octave` stored here. -/
structure PitchName where
  letter : Char
  acc : String
  octave : ℤ
deriving DecidableEq, Repr

/-- Lines 50-58: map the `alter` value to an accidental suffix.
Any other value (e.g. ±3) silently maps to the empty string. -/
def accidentalOfAlter (alter : ℤ) : String :=
  if alter = 1 then "#"
  else if alter = -1 then "b"
  else if alter = 2 then "##"
  else if alter = -2 then "bb" else ""

/-- Lines 15-17: convert a MusicXML duration to beats, `float(duration) / divisions`. -/
def parse_duration (raw : ℚ) (divisions : ℤ) : ℚ := raw / (divisions : ℚ)

/-- The dictionary returned by `get_note_info`: either
`{"rest": True, "duration": d}` or `{"note": pitch, "duration": d}`. -/
structure NoteInfo where
  pitch : Option PitchName
  rest : Bool
  duration : ℚ
deriving DecidableEq, Repr

/-- Lines 19-65, `get_note_info`.  Returns `.ok none` where the source returns
`None` (note skipped individually), `.ok (some info)` on success, and
`.error ()` where the source raises (`step`/`octave` child missing → attribute
error on `None.text`; `alter` text not an integer → `ValueError`).  The rest
check happens first, the duration check second (a rest needs no pitch), and
the pitch children are read in source order step, octave, alter. -/
def get_note_info (divisions : ℤ) (n : NoteElem) : Except Unit (Option NoteInfo) :=
  match n.duration with
  | none => .ok none
  | some raw =>
    let d := parse_duration raw divisions
    if n.rest then .ok (some ⟨none, true, d⟩)
    else
      match n.pitch with
      | none => .ok none
      | some p =>
        match p.step with
        | none => .error ()
        | some st =>
          match p.octave with
          | none => .error ()
          | some oc =>
            match p.alter with
            | none => .ok (some ⟨some ⟨st, accidentalOfAlter 0, oc⟩, false, d⟩)
            | some none => .error ()
            | some (some a) => .ok (some ⟨some ⟨st, accidentalOfAlter a, oc⟩, false, d⟩)

/-- An event of the combined timeline (`combined_notes` in `combine_parts`).
The importer's dicts carry the keys `note`/`rest`, `duration` and `time`; a
`measure` key could in principle be present on such a dict (the editor's and
the spec's event format has one) and is therefore modelled as an `Option`
field — the importer never writes it, so it stays `none`. -/
structure XNote where
  pitch : Option PitchName
  rest : Bool
  time : ℚ
  duration : ℚ
  measure : Option ℤ
deriving DecidableEq, Repr

/-- The note loop of `combine_parts` (lines 125-130) over the notes of one
measure: each parsed event is stamped with the running cursor `measure_time`
and the cursor advances by the event's duration; a `None` from `get_note_info`
is skipped; an exception stops processing (the events appended so far are
kept, flagged `false`). Returns (events, final cursor, success flag). -/
def procNotes (divisions : ℤ) : ℚ → List NoteElem → List XNote × ℚ × Bool
  | t, [] => ([], t, true)
  | t, n :: ns =>
    match get_note_info divisions n with
    | .error _ => ([], t, false)
    | .ok none => procNotes divisions t ns
    | .ok (some i) =>
      let r := procNotes divisions (t + i.duration) ns
      (⟨i.pitch, i.rest, t, i.duration, none⟩ :: r.1, r.2)

/-- The measure loop of `combine_parts` (lines 123-130): measures of one part
processed sequentially with the same cursor; an exception mid-measure stops
the whole part (remaining measures are skipped). -/
def procMeasures (divisions : ℤ) : ℚ → List (List NoteElem) → List XNote × ℚ × Bool
  | t, [] => ([], t, true)
  | t, m :: ms =>
    let r := procNotes divisions t m
    if r.2.2 then
      let r2 := procMeasures divisions r.2.1 ms
      (r.1 ++ r2.1, r2.2)
    else (r.1, r.2.1, false)

/-- The part loop of `combine_parts` (lines 120-132): each part starts at the
current `current_time`, and `current_time = measure_time` is executed only
after a part completes — when a part raises, the cursor keeps the value it had
before that part, the partial events are kept, and the remaining parts of the
document are skipped. -/
def procParts (divisions : ℤ) : ℚ → List (List (List NoteElem)) → List XNote × ℚ × Bool
  | t, [] => ([], t, true)
  | t, p :: ps =>
    let r := procMeasures divisions t p
    if r.2.2 then
      let r2 := procParts divisions r.2.1 ps
      (r.1 ++ r2.1, r2.2)
    else (r.1, t, false)

/-- One MusicXML document of a piece, with the elements `combine_parts` reads:
the optional `work-title` text, the optional composer `creator` text, the
optional `time` element (with its optional `beats` and `beat-type` children,
already parsed as integers), the optional `divisions` value, and the parts
(each a list of measures, each a list of note elements). -/
structure Doc where
  workTitle : Option String
  composer : Option String
  timeElem : Option (Option ℤ × Option ℤ)
  divisions : Option ℤ
  parts : List (List (List NoteElem))
deriving DecidableEq, Repr

/-- The document loop of `combine_parts` (lines 83-136): a document with no
`divisions` element is skipped (warning + `continue`); any exception while
processing a document is caught per document and the loop continues with the
next document, keeping the events gathered so far and the last committed
cursor value. -/
def combineDocs : ℚ → List Doc → List XNote × ℚ
  | t, [] => ([], t)
  | t, d :: ds =>
    match d.divisions with
    | none => combineDocs t ds
    | some dv =>
      let r := procParts dv t d.parts
      let r2 := combineDocs r.2.1 ds
      (r.1 ++ r2.1, r2.2)

/-- The metadata dictionary of `combine_parts` (lines 75-81) with its default
values: bpm 90, time signature 4/4, standard guitar tuning. -/
structure Metadata where
  title : String
  artist : String
  bpm : ℚ
  timeSignature : ℤ × ℤ
  tuning : List String
deriving DecidableEq, Repr

def stdTuning : List String := ["E2", "A2", "D3", "G3", "B3", "E4"]

def defaultMeta : Metadata :=
  { title := "", artist := "", bpm := 90, timeSignature := (4, 4), tuning := stdTuning }

/-- Lines 92-110: metadata extraction, performed for the first document only.
Title and artist are overwritten when the corresponding element is present;
the time signature only when the `time` element and both its `beats` and
`beat-type` children are present. -/
def extractMeta (d : Doc) (m0 : Metadata) : Metadata :=
  let m1 := match d.workTitle with
    | some t => { m0 with title := t }
    | none => m0
  let m2 := match d.composer with
    | some c => { m1 with artist := c }
    | none => m1
  match d.timeElem with
  | some (some b, some bt) => { m2 with timeSignature := (b, bt) }
  | _ => m2

/-- Lines 67-138, `combine_parts`: metadata from the first document (the
files are taken already in their sorted movement order), one global cursor
`current_time` starting at 0 threaded through all documents, and the combined
note list.  Note that the metadata block runs before the `divisions` check,
so a first document without `divisions` still contributes metadata. -/
def combine_parts (docs : List Doc) : Metadata × List XNote :=
  let meta := match docs with
    | [] => defaultMeta
    | d :: _ => extractMeta d defaultMeta
  (meta, (combineDocs 0 docs).1)

/-! ### Quantizer/formatter: convert_to_json (lines 140-258) -/

/-- Python 3 `round()` on a rational: nearest integer, ties to the even
neighbour (banker's rounding). -/
def pyRound (q : ℚ) : ℤ :=
  let f := ratFloor q
  let r := q - (f : ℚ)
  if r < 1 / 2 then f
  else if 1 / 2 < r then f + 1
  else if Even f then f else f + 1

/-- Line 160: `round(note["time"] * 2) / 2` — time snapped to the nearest
half beat. -/
def qTime (t : ℚ) : ℚ := (pyRound (t * 2) : ℚ) / 2

/-- Lines 161-166: duration snapped to the nearest third of a beat if that is
within 0.01 of the original value (triplets), otherwise to the nearest half
beat. -/
def qDur (d : ℚ) : ℚ :=
  if |d - (pyRound (d * 3) : ℚ) / 3| < 1 / 100 then (pyRound (d * 3) : ℚ) / 3
  else (pyRound (d * 2) : ℚ) / 2

/-- Lines 168-169: both fields of the note are overwritten with their rounded
values before grouping. -/
def quantizeNote (x : XNote) : XNote :=
  { x with time := qTime x.time, duration := qDur x.duration }

/-- The pitch-class dictionary of lines 187/234.  A letter outside the table
raises `KeyError` in the source (aborting the conversion of the whole piece);
the embedding is only applied to letters in the table. -/
def letterVal (c : Char) : Option ℤ :=
  if c = 'C' then some 0
  else if c = 'D' then some 2
  else if c = 'E' then some 4
  else if c = 'F' then some 5
  else if c = 'G' then some 7
  else if c = 'A' then some 9
  else if c = 'B' then some 11 else none

/-- The sort key of lines 187/234: `float('-inf')` for rests, otherwise
`int(note[-1]) * 12 + table[note[0]]` (octave digit times 12 plus pitch
class; accidentals are ignored).  `⊥` models `-inf`; a missing pitch or a
letter outside the table would raise in the source and is mapped to `⊥`,
unreachable for importer-produced notes with table letters. -/
def noteKey (x : XNote) : WithBot ℤ :=
  if x.rest then ⊥
  else match x.pitch with
    | none => ⊥
    | some p =>
      match letterVal p.letter with
      | none => ⊥
      | some c => ((p.octave * 12 + c : ℤ) : WithBot ℤ)

/-- The group ordering of `notes.sort(key=..., reverse=True)`: `a` may come
before `b` iff `a`'s key is at least `b`'s. -/
def gle (a b : XNote) : Prop := noteKey b ≤ noteKey a

instance : DecidableRel gle := fun a b =>
  (inferInstance : Decidable (noteKey b ≤ noteKey a))

instance : IsTotal XNote gle :=
  ⟨fun a b => le_total (noteKey b) (noteKey a)⟩

instance : IsTrans XNote gle :=
  ⟨fun _ _ _ hab hbc => le_trans hbc hab⟩

/-- The order in which the note groups are emitted (lines 225-244): groups in
ascending rounded-time order, and inside a group (equal times) descending
pitch key with rests last. -/
def EmitOrder (a b : XNote) : Prop :=
  a.time < b.time ∨ (a.time = b.time ∧ noteKey b ≤ noteKey a)

/-- Lines 156-197 and the write loop 225-244: quantize every note, group the
quantized notes by their (rounded) `time`, then emit the groups in ascending
time order, each group sorted by descending pitch key (`reverse=True`).
The dict `notes_by_time` keeps, for each time value, the notes in list order,
which is exactly `filter`; iterating `sorted(notes_by_time.keys())` is the
ascending sort of the distinct time values.  (The `formatted_notes` list built
at lines 177-197 is not what is written to disk; the write loop re-traverses
`notes_by_time`, re-sorting each group — `sort` is idempotent.) -/
def formatNotes (l : List XNote) : List XNote :=
  let q := l.map quantizeNote
  let keys := List.insertionSort (· ≤ ·) (q.map (fun x => x.time)).dedup
  keys.flatMap fun k => List.insertionSort gle (q.filter (fun x => decide (x.time = k)))

/-- Python substring test `needle in hay` on the character lists. -/
def pyInStr (needle hay : String) : Bool :=
  (List.range (hay.toList.length + 1)).any
    (fun i => needle.toList.isPrefixOf (hay.toList.drop i))

/-- Lines 204-210: the metadata actually written to the JSON file.  `title` is
replaced by `"Study No. 1"` whenever the lowercased base name contains
`"study"`; `bpm` is hard-coded to 92 and `timeSignature` to `[3, 4]`
regardless of the song data; `artist` and `tuning` pass through. -/
def emitMeta (baseName : String) (m : Metadata) : Metadata :=
  { title := if pyInStr "study" baseName.toLower then "Study No. 1" else m.title
    artist := m.artist
    bpm := 92
    timeSignature := (3, 4)
    tuning := m.tuning }

/-! #### Rounding lemmas and claim C9 -/

theorem pyRound_intCast (k : ℤ) : pyRound (k : ℚ) = k := by
  unfold pyRound
  simp only [ratFloor_eq, Int.floor_intCast, sub_self]
  norm_num

/-- Claim C9: the quantization step is idempotent.  If `time` is already a
multiple of 0.5 beats, re-rounding it is the identity; if `duration` is
already a value the duration quantizer produces, re-quantizing it is the
identity. -/
theorem c9_quantizer_idempotent (t d : ℚ)
    (ht : ∃ k : ℤ, t = (k : ℚ) / 2) (hd : ∃ d0, d = qDur d0) :
    qTime t = t ∧ qDur d = d := by
  constructor
  · obtain ⟨k, rfl⟩ := ht
    have h2 : (k : ℚ) / 2 * 2 = (k : ℚ) := by ring
    rw [qTime, h2, pyRound_intCast]
  · obtain ⟨d0, rfl⟩ := hd
    by_cases h1 : |d0 - (pyRound (d0 * 3) : ℚ) / 3| < 1 / 100
    · have hval : qDur d0 = (pyRound (d0 * 3) : ℚ) / 3 := by rw [qDur, if_pos h1]
      rw [hval]
      have h3 : ((pyRound (d0 * 3) : ℚ) / 3) * 3 = (pyRound (d0 * 3) : ℚ) := by ring
      have hcheck : |(pyRound (d0 * 3) : ℚ) / 3 -
          (pyRound ((pyRound (d0 * 3) : ℚ) / 3 * 3) : ℚ) / 3| < 1 / 100 := by
        rw [h3, pyRound_intCast, sub_self, abs_zero]
        norm_num
      rw [qDur, if_pos hcheck, h3, pyRound_intCast]
    · have hval : qDur d0 = (pyRound (d0 * 2) : ℚ) / 2 := by rw [qDur, if_neg h1]
      rw [hval]
      set k := pyRound (d0 * 2) with hk
      rcases Int.even_or_odd k with ⟨m, hm⟩ | ⟨m, hm⟩
      · have hd2 : (k : ℚ) / 2 = (m : ℚ) := by
          rw [hm]; push_cast; ring
        have hm3 : (m : ℚ) * 3 = ((3 * m : ℤ) : ℚ) := by push_cast; ring
        have hcheck : |(k : ℚ) / 2 - (pyRound ((k : ℚ) / 2 * 3) : ℚ) / 3| < 1 / 100 := by
          rw [hd2, hm3, pyRound_intCast]
          have : (m : ℚ) - ((3 * m : ℤ) : ℚ) / 3 = 0 := by push_cast; ring
          rw [this, abs_zero]
          norm_num
        rw [qDur, if_pos hcheck, hd2, hm3, pyRound_intCast]
        push_cast
        ring
      · have hne : ¬ |(k : ℚ) / 2 - (pyRound ((k : ℚ) / 2 * 3) : ℚ) / 3| < 1 / 100 := by
          set n := pyRound ((k : ℚ) / 2 * 3)
          have hval : (k : ℚ) / 2 - (n : ℚ) / 3 = ((3 * k - 2 * n : ℤ) : ℚ) / 6 := by
            push_cast; ring
          have hodd : (3 * k - 2 * n : ℤ) ≠ 0 := by omega
          have h1le : (1 : ℚ) ≤ |((3 * k - 2 * n : ℤ) : ℚ)| := by
            rw [← Int.cast_abs]
            exact_mod_cast Int.one_le_abs hodd
          rw [hval, abs_div, not_lt]
          have h6 : |(6 : ℚ)| = 6 := by norm_num
          rw [h6]
          have h16 : (1 : ℚ) / 6 ≤ |((3 * k - 2 * n : ℤ) : ℚ)| / 6 := by gcongr
          linarith
        rw [qDur, if_neg hne]
        have h2 : (k : ℚ) / 2 * 2 = (k : ℚ) := by ring
        rw [h2, pyRound_intCast]

theorem c9_witness : qTime ((3 : ℚ) / 2) = (3 : ℚ) / 2 ∧ qDur (qDur 1) = qDur 1 :=
  c9_quantizer_idempotent ((3 : ℚ) / 2) (qDur 1) ⟨3, by norm_num⟩ ⟨1, rfl⟩

/-! #### Formatter lemmas and claim C8 -/

theorem formatNotes_eq (l : List XNote) : formatNotes l =
    (List.insertionSort (· ≤ ·) ((l.map quantizeNote).map (fun x => x.time)).dedup).flatMap
      (fun k => List.insertionSort gle
        ((l.map quantizeNote).filter (fun x => decide (x.time = k)))) := rfl

theorem mem_group_time (q : List XNote) (k : ℚ) :
    ∀ x ∈ List.insertionSort gle (q.filter (fun x => decide (x.time = k))), x.time = k := by
  intro x hx
  have hx2 : x ∈ q.filter (fun x => decide (x.time = k)) :=
    (List.perm_insertionSort gle _).mem_iff.mp hx
  have := (List.mem_filter.mp hx2).2
  simpa using this

theorem chain_emit_flat (q : List XNote) : ∀ keys : List ℚ, List.Sorted (· < ·) keys →
    List.Chain' EmitOrder (keys.flatMap fun k =>
      List.insertionSort gle (q.filter (fun x => decide (x.time = k)))) := by
  intro keys
  induction keys with
  | nil => intro _; simp
  | cons k ks ih =>
    intro hs
    rw [List.flatMap_cons, List.chain'_append]
    refine ⟨?_, ih hs.of_cons, ?_⟩
    · have hp : List.Pairwise gle (List.insertionSort gle
          (q.filter (fun x => decide (x.time = k)))) := List.sorted_insertionSort gle _
      have hall := mem_group_time q k
      exact (List.Pairwise.imp_of_mem
        (fun ha hb hg => Or.inr ⟨(hall _ ha).trans (hall _ hb).symm, hg⟩) hp).chain'
    · intro x hx y hy
      have hxmem : x ∈ List.insertionSort gle (q.filter (fun z => decide (z.time = k))) :=
        List.mem_of_getLast?_eq_some hx
      have hxt : x.time = k := mem_group_time q k x hxmem
      have hymem := List.mem_of_mem_head? hy
      rw [List.mem_flatMap] at hymem
      obtain ⟨k', hk', hy2⟩ := hymem
      have hyt : y.time = k' := mem_group_time q k' y hy2
      exact Or.inl (by rw [hxt, hyt]; exact List.rel_of_sorted_cons hs k' hk')

theorem flatMap_sort_perm (q : List XNote) : ∀ keys : List ℚ,
    List.Perm
      (keys.flatMap fun k =>
        List.insertionSort gle (q.filter (fun x => decide (x.time = k))))
      (keys.flatMap fun k => q.filter (fun x => decide (x.time = k))) := by
  intro keys
  induction keys with
  | nil => simp
  | cons k ks ih =>
    rw [List.flatMap_cons, List.flatMap_cons]
    exact (List.perm_insertionSort gle _).append ih

theorem flatMap_congr_mem {α β : Type} (l : List α) (f g : α → List β)
    (h : ∀ a ∈ l, f a = g a) : l.flatMap f = l.flatMap g := by
  induction l with
  | nil => rfl
  | cons a as ih =>
    rw [List.flatMap_cons, List.flatMap_cons, h a (List.mem_cons_self a as),
      ih (fun x hx => h x (List.mem_cons_of_mem a hx))]

theorem flat_filter_perm : ∀ (keys : List ℚ) (q : List XNote), keys.Nodup →
    (∀ x ∈ q, x.time ∈ keys) →
    List.Perm (keys.flatMap fun k => q.filter (fun x => decide (x.time = k))) q := by
  intro keys
  induction keys with
  | nil =>
    intro q _ hall
    cases q with
    | nil => simp
    | cons a as => exact absurd (hall a (List.mem_cons_self a as)) (List.not_mem_nil _)
  | cons k ks ih =>
    intro q hnd hall
    rw [List.flatMap_cons]
    have hknotin : k ∉ ks := (List.nodup_cons.mp hnd).1
    have hrw : ∀ k' ∈ ks, q.filter (fun x => decide (x.time = k'))
        = (q.filter (fun x => !decide (x.time = k))).filter
            (fun x => decide (x.time = k')) := by
      intro k' hk'
      rw [List.filter_filter]
      apply List.filter_congr
      intro x hx
      by_cases hxk : x.time = k'
      · have hkk : ¬(k' = k) := fun h => hknotin (h ▸ hk')
        simp [hxk, hkk]
      · simp [hxk]
    rw [flatMap_congr_mem ks _ _ hrw]
    have hq' : ∀ x ∈ q.filter (fun x => !decide (x.time = k)), x.time ∈ ks := by
      intro x hx
      have hxq : x ∈ q := List.mem_of_mem_filter hx
      have hxne : ¬(x.time = k) := by
        have := (List.mem_filter.mp hx).2
        simpa using this
      rcases List.mem_cons.mp (hall x hxq) with h | h
      · exact absurd h hxne
      · exact h
    have hperm2 := ih (q.filter (fun x => !decide (x.time = k)))
      (List.nodup_cons.mp hnd).2 hq'
    exact (List.Perm.append_left _ hperm2).trans (List.filter_append_perm _ q)

theorem formatNotes_perm (l : List XNote) :
    List.Perm (formatNotes l) (l.map quantizeNote) := by
  rw [formatNotes_eq]
  have hnd : (List.insertionSort (· ≤ ·)
      ((l.map quantizeNote).map (fun x => x.time)).dedup).Nodup :=
    (List.perm_insertionSort _ _).nodup_iff.mpr (List.nodup_dedup _)
  have hall : ∀ x ∈ l.map quantizeNote, x.time ∈ List.insertionSort (· ≤ ·)
      ((l.map quantizeNote).map (fun x => x.time)).dedup := by
    intro x hx
    exact (List.perm_insertionSort _ _).mem_iff.mpr
      (List.mem_dedup.mpr (List.mem_map_of_mem _ hx))
  exact (flatMap_sort_perm _ _).trans (flat_filter_perm _ _ hnd hall)

theorem formatNotes_chain (l : List XNote) :
    List.Chain' EmitOrder (formatNotes l) := by
  rw [formatNotes_eq]
  apply chain_emit_flat
  exact (List.sorted_insertionSort _ _).lt_of_le
    ((List.perm_insertionSort _ _).nodup_iff.mpr (List.nodup_dedup _))

/-- A C4 quarter note and a G4 quarter note at time 0 (already quantized). -/
def xC4 : XNote := ⟨some ⟨'C', "", 4⟩, false, 0, 1, none⟩

def xG4 : XNote := ⟨some ⟨'G', "", 4⟩, false, 0, 1, none⟩

/-- Claim C8: the formatter's output consists of the quantized events (a
permutation of them, nothing lost or duplicated), arranged so that adjacent
events are in ascending rounded-time order, and inside a group of equal times
in descending pitch-key order (`octave * 12 + pitchClass(letter)`, accidentals
ignored, rests last as key `⊥`); in particular simultaneous C4 and G4 are
emitted as G4 before C4. -/
theorem c8_emit_ordering (l : List XNote) :
    List.Chain' EmitOrder (formatNotes l)
    ∧ List.Perm (formatNotes l) (l.map quantizeNote)
    ∧ formatNotes [xC4, xG4] = [xG4, xC4] :=
  ⟨formatNotes_chain l, formatNotes_perm l, by
    have ht0 : qTime 0 = 0 := by
      rw [qTime, show ((0 : ℚ) * 2) = ((0 : ℤ) : ℚ) by norm_num, pyRound_intCast]
      norm_num
    have hd1 : qDur 1 = 1 := by
      rw [qDur, show ((1 : ℚ) * 3) = ((3 : ℤ) : ℚ) by norm_num, pyRound_intCast,
        if_pos (by norm_num)]
      norm_num
    have hqC : quantizeNote xC4 = xC4 := by
      simp [quantizeNote, xC4, ht0, hd1]
    have hqG : quantizeNote xG4 = xG4 := by
      simp [quantizeNote, xG4, ht0, hd1]
    have hmap : [xC4, xG4].map quantizeNote = [xC4, xG4] := by
      rw [List.map_cons, List.map_cons, List.map_nil, hqC, hqG]
    rw [formatNotes_eq, hmap]
    decide⟩

/-! #### Claim C1: measure numbers in the importer output -/

theorem get_note_info_shape (dv : ℤ) (n : NoteElem) (i : NoteInfo)
    (h : get_note_info dv n = .ok (some i)) :
    i.rest = true ↔ i.pitch = none := by
  rcases n with ⟨nr, nd, np⟩
  cases nd with
  | none => simp [get_note_info] at h
  | some raw =>
    cases nr with
    | true =>
      simp only [get_note_info, if_true, Except.ok.injEq, Option.some.injEq] at h
      subst h
      simp
    | false =>
      cases np with
      | none => simp [get_note_info] at h
      | some p =>
        rcases p with ⟨pst, poc, pal⟩
        cases pst with
        | none => simp [get_note_info] at h
        | some st =>
          cases poc with
          | none => simp [get_note_info] at h
          | some oc =>
            cases pal with
            | none =>
              simp only [get_note_info, Bool.false_eq_true, if_false,
                Except.ok.injEq, Option.some.injEq] at h
              subst h
              simp
            | some al =>
              cases al with
              | none => simp [get_note_info] at h
              | some a =>
                simp only [get_note_info, Bool.false_eq_true, if_false,
                  Except.ok.injEq, Option.some.injEq] at h
                subst h
                simp

/-- The shape of every event the importer emits: no measure number is ever
assigned, and exactly one of note/rest is meaningful. -/
def NoMeasure (x : XNote) : Prop :=
  x.measure = none ∧ (x.rest = true ↔ x.pitch = none)

theorem procNotes_mem (dv : ℤ) (ns : List NoteElem) : ∀ (t : ℚ) (x : XNote),
    x ∈ (procNotes dv t ns).1 → NoMeasure x := by
  induction ns with
  | nil => intro t x hx; simp [procNotes] at hx
  | cons n ns ih =>
    intro t x hx
    rw [procNotes] at hx
    rcases hg : get_note_info dv n with he | oi
    · rw [hg] at hx
      simp at hx
    · rw [hg] at hx
      cases oi with
      | none => exact ih t x hx
      | some i =>
        simp only [List.mem_cons] at hx
        rcases hx with rfl | hx
        · exact ⟨rfl, get_note_info_shape dv n i hg⟩
        · exact ih _ x hx

theorem procMeasures_mem (dv : ℤ) (ms : List (List NoteElem)) : ∀ (t : ℚ) (x : XNote),
    x ∈ (procMeasures dv t ms).1 → NoMeasure x := by
  induction ms with
  | nil => intro t x hx; simp [procMeasures] at hx
  | cons m ms ih =>
    intro t x hx
    rw [procMeasures] at hx
    by_cases hok : (procNotes dv t m).2.2
    · rw [if_pos hok] at hx
      rcases List.mem_append.mp hx with hx | hx
      · exact procNotes_mem dv m t x hx
      · exact ih _ x hx
    · rw [if_neg hok] at hx
      exact procNotes_mem dv m t x hx

theorem procParts_mem (dv : ℤ) (ps : List (List (List NoteElem))) : ∀ (t : ℚ) (x : XNote),
    x ∈ (procParts dv t ps).1 → NoMeasure x := by
  induction ps with
  | nil => intro t x hx; simp [procParts] at hx
  | cons p ps ih =>
    intro t x hx
    rw [procParts] at hx
    by_cases hok : (procMeasures dv t p).2.2
    · rw [if_pos hok] at hx
      rcases List.mem_append.mp hx with hx | hx
      · exact procMeasures_mem dv p t x hx
      · exact ih _ x hx
    · rw [if_neg hok] at hx
      exact procMeasures_mem dv p t x hx

theorem combineDocs_mem (ds : List Doc) : ∀ (t : ℚ) (x : XNote),
    x ∈ (combineDocs t ds).1 → NoMeasure x := by
  induction ds with
  | nil => intro t x hx; simp [combineDocs] at hx
  | cons d ds ih =>
    intro t x hx
    rw [combineDocs] at hx
    rcases hdv : d.divisions with _ | dv
    · rw [hdv] at hx
      exact ih t x hx
    · rw [hdv] at hx
      rcases List.mem_append.mp hx with hx | hx
      · exact procParts_mem dv d.parts t x hx
      · exact ih _ x hx

/-- Claim C1 (amended): the importer assigns no measure numbers at all.  Every
event of the combined timeline — and of the formatted output — has no
`measure` entry (the measures of the documents are walked only to enumerate
their notes); each event carries exactly one of note/rest. -/
theorem c1_importer_assigns_no_measure (docs : List Doc) :
    (∀ x ∈ (combine_parts docs).2, x.measure = none ∧ (x.rest = true ↔ x.pitch = none))
    ∧ ∀ x ∈ formatNotes (combine_parts docs).2, x.measure = none := by
  constructor
  · intro x hx
    exact combineDocs_mem docs 0 x hx
  · intro x hx
    have hx2 : x ∈ ((combine_parts docs).2).map quantizeNote :=
      (formatNotes_perm _).mem_iff.mp hx
    rw [List.mem_map] at hx2
    obtain ⟨y, hy, rfl⟩ := hx2
    exact (combineDocs_mem docs 0 y hy).1

/-- A C major quarter note element with divisions 1. -/
def neC4 : NoteElem := ⟨false, some 1, some ⟨some 'C', some 4, none⟩⟩

def neD4 : NoteElem := ⟨false, some 1, some ⟨some 'D', some 4, none⟩⟩

/-- A document with one part containing two measures of one note each. -/
def docA : Doc := ⟨none, none, none, some 1, [[[neC4], [neD4]]]⟩

/-- Claim C1 counterexample: the piece `[docA]` has two measures and produces
two events, yet no emitted event carries a measure number (`measure` is absent
from every event dict), contradicting the claim that every event carries a
1-based measure number assigned by walking the measures. -/
theorem c1_counterexample :
    (combine_parts [docA]).2.length = 2
    ∧ ((combine_parts [docA]).2.map (fun x => x.measure)) = [none, none] := by
  constructor <;>
    simp [combine_parts, combineDocs, procParts, procMeasures, procNotes,
      get_note_info, docA, neC4, neD4]

theorem c1_witness :
    (⟨some ⟨'C', "", 4⟩, false, 0, parse_duration 1 1, none⟩ : XNote).measure = none
    ∧ ((⟨some ⟨'C', "", 4⟩, false, 0, parse_duration 1 1, none⟩ : XNote).rest = true
        ↔ (⟨some ⟨'C', "", 4⟩, false, 0, parse_duration 1 1, none⟩ : XNote).pitch = none) :=
  (c1_importer_assigns_no_measure [docA]).1 _
    (by simp [combine_parts, combineDocs, procParts, procMeasures, procNotes,
      get_note_info, accidentalOfAlter, docA, neC4, neD4])

/-! #### Claim C6: piece-level metadata -/

theorem extractMeta_fields (d : Doc) (m0 : Metadata) :
    (extractMeta d m0).title = (match d.workTitle with | some t => t | none => m0.title)
    ∧ (extractMeta d m0).artist = (match d.composer with | some c => c | none => m0.artist)
    ∧ (extractMeta d m0).bpm = m0.bpm
    ∧ (extractMeta d m0).tuning = m0.tuning
    ∧ (extractMeta d m0).timeSignature = (match d.timeElem with
        | some (some b, some bt) => (b, bt)
        | _ => m0.timeSignature) := by
  rcases d with ⟨wt, cp, te, dv, ps⟩
  rcases wt with _ | t <;> rcases cp with _ | c <;>
    rcases te with _ | ⟨_ | b', _ | bt'⟩ <;>
    simp [extractMeta]

theorem combine_parts_meta (d : Doc) (ds : List Doc) :
    (combine_parts (d :: ds)).1 = extractMeta d defaultMeta := rfl

/-- Claim C6 (amended): `combine_parts` reads title, artist and time signature
from the first document only (with defaults: empty title/artist, bpm 90, time
signature 4/4); the tuning is always the hard-coded standard tuning, never
read from any document.  The metadata actually emitted by `convert_to_json`
then hard-codes bpm 92 and time signature 3/4 regardless of the documents,
overrides the title with "Study No. 1" when the lowercased base name contains
"study", and passes artist and tuning through. -/
theorem c6_metadata_flow (d : Doc) (ds : List Doc) (base : String) :
    ((∀ ttl, d.workTitle = some ttl → (combine_parts (d :: ds)).1.title = ttl)
    ∧ (d.workTitle = none → (combine_parts (d :: ds)).1.title = "")
    ∧ (∀ c, d.composer = some c → (combine_parts (d :: ds)).1.artist = c)
    ∧ (d.composer = none → (combine_parts (d :: ds)).1.artist = "")
    ∧ (∀ b bt, d.timeElem = some (some b, some bt) →
        (combine_parts (d :: ds)).1.timeSignature = (b, bt))
    ∧ (d.timeElem = none → (combine_parts (d :: ds)).1.timeSignature = (4, 4))
    ∧ (combine_parts (d :: ds)).1.bpm = 90
    ∧ (combine_parts (d :: ds)).1.tuning = stdTuning)
    ∧ ((emitMeta base (combine_parts (d :: ds)).1).bpm = 92
    ∧ (emitMeta base (combine_parts (d :: ds)).1).timeSignature = (3, 4)
    ∧ (emitMeta base (combine_parts (d :: ds)).1).artist
        = (combine_parts (d :: ds)).1.artist
    ∧ (emitMeta base (combine_parts (d :: ds)).1).tuning
        = (combine_parts (d :: ds)).1.tuning
    ∧ (pyInStr "study" base.toLower = false →
        (emitMeta base (combine_parts (d :: ds)).1).title
          = (combine_parts (d :: ds)).1.title)
    ∧ (pyInStr "study" base.toLower = true →
        (emitMeta base (combine_parts (d :: ds)).1).title = "Study No. 1")) := by
  obtain ⟨h1, h2, h3, h4, h5⟩ := extractMeta_fields d defaultMeta
  rw [combine_parts_meta]
  constructor
  · refine ⟨?_, ?_, ?_, ?_, ?_, ?_, ?_, ?_⟩
    · intro ttl h; rw [h1, h]
    · intro h; rw [h1, h]; rfl
    · intro c h; rw [h2, h]
    · intro h; rw [h2, h]; rfl
    · intro b bt h; rw [h5, h]
    · intro h; rw [h5, h]; rfl
    · rw [h3]; rfl
    · rw [h4]; rfl
  · refine ⟨rfl, rfl, rfl, rfl, ?_, ?_⟩
    · intro h; simp [emitMeta, h]
    · intro h; simp [emitMeta, h]

/-- A document declaring a 6/8 time signature. -/
def docTS : Doc := ⟨none, none, some (some 6, some 8), some 1, []⟩

/-- Claim C6 counterexample: the first (and only) document declares time
signature 6/8; `combine_parts` picks it up, but the emitted metadata contains
the hard-coded 3/4 instead, so a declared time signature does not appear
unchanged in the output (likewise the emitted bpm is always 92). -/
theorem c6_counterexample :
    (combine_parts [docTS]).1.timeSignature = (6, 8)
    ∧ (emitMeta "foo" (combine_parts [docTS]).1).timeSignature = (3, 4)
    ∧ ((6, 8) : ℤ × ℤ) ≠ (3, 4)
    ∧ (emitMeta "foo" (combine_parts [docTS]).1).bpm = 92 := by
  refine ⟨?_, rfl, by decide, rfl⟩
  simp [combine_parts, extractMeta, defaultMeta, docTS]

theorem c6_witness :
    (combine_parts [docTS]).1.timeSignature = (6, 8)
    ∧ (emitMeta "foo" (combine_parts [docTS]).1).bpm = 92 :=
  ⟨((c6_metadata_flow docTS [] "foo").1.2.2.2.2.1) 6 8 rfl,
    (c6_metadata_flow docTS [] "foo").2.1⟩

/-! #### Claim C7: the running time cursor -/

/-- Total duration of a list of events. -/
def sumDur (xs : List XNote) : ℚ := (xs.map (fun x => x.duration)).sum

/-- `Cascade t xs` says the events `xs` are laid out sequentially from cursor
position `t`: each event's time is `t` plus the durations of the events
before it. -/
def Cascade : ℚ → List XNote → Prop
  | _, [] => True
  | t, x :: xs => x.time = t ∧ Cascade (t + x.duration) xs

theorem sumDur_nil : sumDur [] = 0 := rfl

theorem sumDur_cons (x : XNote) (xs : List XNote) :
    sumDur (x :: xs) = x.duration + sumDur xs := by
  simp [sumDur]

theorem sumDur_append (xs ys : List XNote) :
    sumDur (xs ++ ys) = sumDur xs + sumDur ys := by
  simp [sumDur]

theorem cascade_append {t : ℚ} {xs ys : List XNote}
    (hx : Cascade t xs) (hy : Cascade (t + sumDur xs) ys) : Cascade t (xs ++ ys) := by
  induction xs generalizing t with
  | nil =>
    rw [sumDur_nil, add_zero] at hy
    exact hy
  | cons x xs ih =>
    obtain ⟨h1, h2⟩ := hx
    rw [sumDur_cons] at hy
    refine ⟨h1, ih h2 ?_⟩
    rw [← add_assoc] at hy
    exact hy

theorem procNotes_cascade (dv : ℤ) (ns : List NoteElem) : ∀ t : ℚ,
    Cascade t (procNotes dv t ns).1
    ∧ ((procNotes dv t ns).2.2 = true →
        (procNotes dv t ns).2.1 = t + sumDur (procNotes dv t ns).1) := by
  induction ns with
  | nil =>
    intro t
    exact ⟨trivial, fun _ => by simp [procNotes, sumDur]⟩
  | cons n ns ih =>
    intro t
    rw [procNotes]
    rcases hg : get_note_info dv n with he | oi
    · exact ⟨trivial, by simp⟩
    · cases oi with
      | none => exact ih t
      | some i =>
        refine ⟨⟨rfl, (ih (t + i.duration)).1⟩, fun hok => ?_⟩
        have := (ih (t + i.duration)).2 hok
        rw [this, sumDur_cons]
        ring

theorem procMeasures_cascade (dv : ℤ) (ms : List (List NoteElem)) : ∀ t : ℚ,
    Cascade t (procMeasures dv t ms).1
    ∧ ((procMeasures dv t ms).2.2 = true →
        (procMeasures dv t ms).2.1 = t + sumDur (procMeasures dv t ms).1) := by
  induction ms with
  | nil =>
    intro t
    exact ⟨trivial, fun _ => by simp [procMeasures, sumDur]⟩
  | cons m ms ih =>
    intro t
    rw [procMeasures]
    by_cases hok : (procNotes dv t m).2.2
    · rw [if_pos hok]
      have hn := procNotes_cascade dv m t
      have hcur := hn.2 hok
      have hm := ih (procNotes dv t m).2.1
      constructor
      · apply cascade_append hn.1
        rw [← hcur]
        exact hm.1
      · intro hok2
        have := hm.2 hok2
        rw [this, hcur, sumDur_append]
        ring
    · rw [if_neg hok]
      exact ⟨(procNotes_cascade dv m t).1, by simp⟩

/-- A one-part, one-measure, one-note document (divisions 1, duration 1). -/
def docB1 : Doc := ⟨none, none, none, some 1, [[[neC4]]]⟩

def docB2 : Doc := ⟨none, none, none, some 1, [[[neD4]]]⟩

/-- Claim C7 (amended): the importer keeps ONE running cursor for the whole
piece, not one per document/voice.  Within a part the events are laid out
sequentially from the cursor value at which the part starts (each event's
time is that starting value plus the durations of the preceding parsed events
of the part, and on completion the cursor has advanced by the part's total
duration); each subsequent part/document then starts at the cursor value left
behind, as the concrete two-document piece shows: the second document's only
event gets time 1, the end of the first document, not 0. -/
theorem c7_global_cursor (dv : ℤ) (ms : List (List NoteElem)) (t : ℚ) :
    Cascade t (procMeasures dv t ms).1
    ∧ ((procMeasures dv t ms).2.2 = true →
        (procMeasures dv t ms).2.1 = t + sumDur (procMeasures dv t ms).1)
    ∧ ((combine_parts [docB1, docB2]).2.map (fun x => x.time)) = [0, 1] := by
  refine ⟨(procMeasures_cascade dv ms t).1, (procMeasures_cascade dv ms t).2, ?_⟩
  norm_num [combine_parts, combineDocs, procParts, procMeasures, procNotes,
    get_note_info, parse_duration, docB1, docB2, neC4, neD4]

theorem c7_witness :
    Cascade 0 (procMeasures 1 0 [[neC4]]).1
    ∧ ((procMeasures 1 0 [[neC4]]).2.2 = true →
        (procMeasures 1 0 [[neC4]]).2.1 = 0 + sumDur (procMeasures 1 0 [[neC4]]).1)
    ∧ ((combine_parts [docB1, docB2]).2.map (fun x => x.time)) = [0, 1] :=
  c7_global_cursor 1 [[neC4]] 0

/-- Claim C7 counterexample: in a piece of two documents (each one voice with
a single event of duration 1), the second document's first event is stamped
with time 1 — the cursor left by the first document — although no event
precedes it in its own document/voice; the claimed per-document cursor
starting at 0 would stamp it with time 0. -/
theorem c7_counterexample :
    ((combine_parts [docB1, docB2]).2.map (fun x => x.time)) = [0, 1]
    ∧ (1 : ℚ) ≠ 0 := by
  refine ⟨?_, by norm_num⟩
  norm_num [combine_parts, combineDocs, procParts, procMeasures, procNotes,
    get_note_info, parse_duration, docB1, docB2, neC4, neD4]

/-! #### Claim C10: error granularity of the importer -/

theorem get_note_info_raises (dv : ℤ) (raw : ℚ) (p : PitchElem) (bad : NoteElem)
    (hb1 : bad.duration = some raw) (hb2 : bad.rest = false) (hb3 : bad.pitch = some p)
    (hbp : p.step = none ∨ p.octave = none ∨ p.alter = some none) :
    get_note_info dv bad = .error () := by
  rcases bad with ⟨nr, nd, np⟩
  simp only at hb1 hb2 hb3
  subst hb1
  subst hb2
  subst hb3
  rcases p with ⟨pst, poc, pal⟩
  rcases hbp with h | h | h
  · simp only at h
    subst h
    simp [get_note_info]
  · simp only at h
    subst h
    cases pst <;> simp [get_note_info]
  · simp only at h
    subst h
    cases pst <;> cases poc <;> simp [get_note_info]

theorem get_note_info_skips (dv : ℤ) (n : NoteElem)
    (h : n.duration = none ∨ (n.rest = false ∧ n.pitch = none)) :
    get_note_info dv n = .ok none := by
  rcases n with ⟨nr, nd, np⟩
  rcases h with h | ⟨h1, h2⟩
  · simp only at h
    subst h
    simp [get_note_info]
  · simp only at h1 h2
    subst h1
    subst h2
    cases nd <;> simp [get_note_info]

theorem procNotes_append_ok (dv : ℤ) (bs : List NoteElem) :
    ∀ (as : List NoteElem) (t : ℚ), (procNotes dv t as).2.2 = true →
    procNotes dv t (as ++ bs)
      = ((procNotes dv t as).1 ++ (procNotes dv (procNotes dv t as).2.1 bs).1,
         (procNotes dv (procNotes dv t as).2.1 bs).2) := by
  intro as
  induction as with
  | nil => intro t _; rfl
  | cons a as ih =>
    intro t hok
    rw [List.cons_append]
    rcases hg : get_note_info dv a with he | oi
    · simp [procNotes, hg] at hok
    · cases oi with
      | none =>
        simp only [procNotes, hg] at hok ⊢
        exact ih t hok
      | some i =>
        simp only [procNotes, hg] at hok ⊢
        rw [ih (t + i.duration) hok]
        rfl

/-- Claim C10: a note element whose pitch element lacks `step` or `octave`, or
whose `alter` text is not an integer, makes `get_note_info` raise; the
exception is caught per document: the notes parsed so far in that document are
kept, every remaining note, measure and part of the document is skipped, the
cursor stays at the last committed value, and subsequently listed documents
are processed normally from it.  By contrast a note lacking its duration
element, or a non-rest lacking the pitch element itself, yields `None` and is
skipped individually, leaving the rest of its document unaffected. -/
theorem c10_error_granularity (dv : ℤ) (raw : ℚ) (p : PitchElem) (bad skip : NoteElem)
    (hb1 : bad.duration = some raw) (hb2 : bad.rest = false) (hb3 : bad.pitch = some p)
    (hbp : p.step = none ∨ p.octave = none ∨ p.alter = some none)
    (hsk : skip.duration = none ∨ (skip.rest = false ∧ skip.pitch = none))
    (pre suf : List NoteElem) (msuf : List (List NoteElem))
    (psuf : List (List (List NoteElem)))
    (wt cp : Option String) (te : Option (Option ℤ × Option ℤ)) (ds : List Doc)
    (t : ℚ) (hpre : (procNotes dv t pre).2.2 = true) :
    get_note_info dv bad = .error ()
    ∧ get_note_info dv skip = .ok none
    ∧ procNotes dv t (pre ++ bad :: suf)
        = ((procNotes dv t pre).1, (procNotes dv t pre).2.1, false)
    ∧ procMeasures dv t ((pre ++ bad :: suf) :: msuf)
        = ((procNotes dv t pre).1, (procNotes dv t pre).2.1, false)
    ∧ procParts dv t (((pre ++ bad :: suf) :: msuf) :: psuf)
        = ((procNotes dv t pre).1, t, false)
    ∧ combineDocs t (⟨wt, cp, te, some dv, ((pre ++ bad :: suf) :: msuf) :: psuf⟩ :: ds)
        = ((procNotes dv t pre).1 ++ (combineDocs t ds).1, (combineDocs t ds).2)
    ∧ (∀ q ns, procNotes dv q (skip :: ns) = procNotes dv q ns) := by
  have herr : get_note_info dv bad = .error () :=
    get_note_info_raises dv raw p bad hb1 hb2 hb3 hbp
  have hskip : get_note_info dv skip = .ok none := get_note_info_skips dv skip hsk
  have hbadlist : ∀ q : ℚ, procNotes dv q (bad :: suf) = ([], q, false) := by
    intro q
    rw [procNotes, herr]
  have h3 : procNotes dv t (pre ++ bad :: suf)
      = ((procNotes dv t pre).1, (procNotes dv t pre).2.1, false) := by
    rw [procNotes_append_ok dv (bad :: suf) pre t hpre, hbadlist]
    simp
  have h4 : procMeasures dv t ((pre ++ bad :: suf) :: msuf)
      = ((procNotes dv t pre).1, (procNotes dv t pre).2.1, false) := by
    rw [procMeasures, h3]
    simp
  have h5 : procParts dv t (((pre ++ bad :: suf) :: msuf) :: psuf)
      = ((procNotes dv t pre).1, t, false) := by
    rw [procParts, h4]
    simp
  refine ⟨herr, hskip, h3, h4, h5, ?_, ?_⟩
  · simp [combineDocs, h5]
  · intro q ns
    rw [procNotes, hskip]

/-- A non-rest note element with a pitch element lacking its `step` child. -/
def badNE : NoteElem := ⟨false, some 1, some ⟨none, none, none⟩⟩

/-- A note element with no duration child. -/
def skipNE : NoteElem := ⟨false, none, none⟩

theorem c10_witness :
    get_note_info 1 badNE = .error ()
    ∧ get_note_info 1 skipNE = .ok none
    ∧ procNotes 1 0 ([] ++ badNE :: [])
        = ((procNotes 1 0 []).1, (procNotes 1 0 []).2.1, false)
    ∧ procMeasures 1 0 (([] ++ badNE :: []) :: [])
        = ((procNotes 1 0 []).1, (procNotes 1 0 []).2.1, false)
    ∧ procParts 1 0 ((([] ++ badNE :: []) :: []) :: [])
        = ((procNotes 1 0 []).1, 0, false)
    ∧ combineDocs 0 (⟨none, none, none, some 1, (([] ++ badNE :: []) :: []) :: []⟩ :: [])
        = ((procNotes 1 0 []).1 ++ (combineDocs 0 []).1, (combineDocs 0 []).2)
    ∧ (∀ q ns, procNotes 1 q (skipNE :: ns) = procNotes 1 q ns) :=
  c10_error_granularity 1 1 ⟨none, none, none⟩ badNE skipNE rfl rfl rfl (Or.inl rfl)
    (Or.inl rfl) [] [] [] [] none none none [] 0 rfl
